import Mathlib

/-!
Verification of chjj/buffer-map (src/lib/buffer-map.js).

The library provides `BufferMap` and `BufferSet`: containers whose keys are
byte sequences compared by content.  Each class wraps a native JS `Map`
(insertion-order preserving) keyed by the string `toBinary(key)`, the
latin1 (binary) decoding of the key bytes.

Shallow embedding conventions:
* a byte is `Fin 256`;
* a JS string is modelled as its list of UTF-16 code units (`List Nat`);
  the binary encoding maps byte `b` to code unit `b` (latin1);
* a JS `Map` is an insertion-ordered association list `List (List Nat × α)`
  with `Map.set` updating in place when the key is present and appending
  otherwise;
* JS values stored in a `BufferMap` are `Option V`: `none` models the JS
  value `undefined`, `some v` any other value;
* a thrown `TypeError` is modelled with `Except MapError`; operations that
  mutate `this` return the new state paired with the outcome, and on a
  throw the state returned is the unmodified receiver, since `toBinary`
  runs before any access to `this.map` in the source.
-/

namespace BufferMapJS

abbrev Byte := Fin 256

/-- The error kinds raised by the library: `invalidKeyType` is the
TypeError thrown by `toBuffer` on a non-byte-bearing key, `invalidCallback`
the TypeError thrown by `forEach` on a non-function argument. -/
inductive MapError where
  | invalidKeyType : MapError
  | invalidCallback : MapError
deriving DecidableEq, Repr

/-- A JS value passed as a key.  `buffer bytes` is a Node `Buffer` with
visible contents `bytes`; `view backing off len` is any other
`ArrayBuffer` view (TypedArray or DataView) with backing-buffer bytes
`backing`, `byteOffset` `off` and `byteLength` `len`; `arrayBuffer shared
bytes` is an `ArrayBuffer` (or, when `shared` is true, a
`SharedArrayBuffer`) with contents `bytes`; `nonBuffer` is any JS value of
none of those types. -/
inductive JSKey where
  | buffer : List Byte → JSKey
  | view : List Byte → Nat → Nat → JSKey
  | arrayBuffer : Bool → List Byte → JSKey
  | nonBuffer : JSKey
deriving DecidableEq, Repr

/-- Bytes exposed by a view: the region `[off, off+len)` of the backing
buffer (a real JS view always satisfies `off + len ≤ backing.length`). -/
def viewBytes (backing : List Byte) (off len : Nat) : List Byte :=
  (backing.drop off).take len

/-- Embedding of `toBuffer` (buffer-map.js lines 300-308): a view becomes
`Buffer.from(key.buffer, key.byteOffset, key.byteLength)` (a Node `Buffer`
is itself a view, so `ArrayBuffer.isView` accepts it and the result has the
same visible bytes); an (Shared)ArrayBuffer becomes
`Buffer.from(key, 0, key.byteLength)`; anything else throws
a TypeError (message: Non-buffer passed to buffer map/set). -/
def toBuffer : JSKey → Except MapError (List Byte)
  | .buffer bs => .ok bs
  | .view backing off len => .ok (viewBytes backing off len)
  | .arrayBuffer _ bs => .ok (viewBytes bs 0 bs.length)
  | .nonBuffer => .error .invalidKeyType

/-- The binary (latin1) encoding of one octet: byte `b` becomes the
single UTF-16 code unit `b`.  One byte, one unit. -/
def latin1Unit (b : Byte) : Nat := b.val

/-- Embedding of `buf.toString` with the binary encoding, for a Node `Buffer`: each byte
becomes one latin1 code unit. -/
def bufToString (bs : List Byte) : List Nat := bs.map latin1Unit

/-- Embedding of `encode` with the binary encoding (lines 316-321): a Buffer is
encoded directly, any other key goes through `toBuffer` first. -/
def encode (key : JSKey) : Except MapError (List Nat) :=
  match key with
  | .buffer bs => .ok (bufToString bs)
  | k => (toBuffer k).map bufToString

/-- Embedding of `toBinary` (lines 328-330). -/
def toBinary (key : JSKey) : Except MapError (List Nat) := encode key

/-- The byte sequence denoted by a byte-bearing input, `none` when the
input is not byte-bearing.  Spec-side notion used to state content
equality of keys. -/
def JSKey.contents : JSKey → Option (List Byte)
  | .buffer bs => some bs
  | .view backing off len => some (viewBytes backing off len)
  | .arrayBuffer _ bs => some bs
  | .nonBuffer => none

/-! JS `Map` model: insertion-ordered association list over string keys. -/

abbrev JSMap (α : Type) := List (List Nat × α)

/-- JS `Map.prototype.has`. -/
def jsHas {α : Type} : JSMap α → List Nat → Bool
  | [], _ => false
  | p :: tl, k => if p.1 = k then true else jsHas tl k

/-- JS `Map.prototype.get` (first — and, with distinct keys, only —
binding of the key). -/
def jsGet {α : Type} : JSMap α → List Nat → Option α
  | [], _ => none
  | p :: tl, k => if p.1 = k then some p.2 else jsGet tl k

/-- Replacement of the value stored under an existing key, in place. -/
def jsReplace {α : Type} : JSMap α → List Nat → α → JSMap α
  | [], _, _ => []
  | p :: tl, k, v => if p.1 = k then (k, v) :: tl else p :: jsReplace tl k v

/-- JS `Map.prototype.set`: update in place when the key is present
(keeping its position in insertion order), append at the end otherwise. -/
def jsSet {α : Type} (m : JSMap α) (k : List Nat) (v : α) : JSMap α :=
  if jsHas m k then jsReplace m k v else m ++ [(k, v)]

/-- JS `Map.prototype.delete`, state part: remove the binding of `k`. -/
def jsDel {α : Type} : JSMap α → List Nat → JSMap α
  | [], _ => []
  | p :: tl, k => if p.1 = k then jsDel tl k else p :: jsDel tl k

/-- Insertion-ordered list of string keys of the native map. -/
def jsKeys {α : Type} (m : JSMap α) : List (List Nat) := m.map (·.1)

/-- Insertion-ordered list of values of the native map
(`this.map.values()`). -/
def jsValues {α : Type} (m : JSMap α) : List α := m.map (·.2)

/-! The `BufferMap` class (lines 20-144). -/

/-- Embedding of the internal `BufferItem` record: the original key object
and the value.  The value is `Option V` with `none` modelling the JS value
`undefined`. -/
structure BufferItem (V : Type) where
  key : JSKey
  value : Option V
deriving Repr

/-- Embedding of `BufferMap`: `this.map`, a JS `Map` from binary strings
to `BufferItem`s. -/
structure BufferMap (V : Type) where
  map : JSMap (BufferItem V)
deriving Repr

/-- A fresh `new BufferMap()` with no iterable argument. -/
def BufferMap.empty {V : Type} : BufferMap V := ⟨[]⟩

/-- Embedding of the `size` getter: `this.map.size`. -/
def BufferMap.size {V : Type} (m : BufferMap V) : Nat := m.map.length

/-- Embedding of `BufferMap.prototype.get` (lines 45-52): look up the
binary string; a missing item (`!item`, and a `BufferItem` object is never
falsy) yields `undefined`, otherwise `item.value` is returned. -/
def BufferMap.get {V : Type} (m : BufferMap V) (key : JSKey) :
    Except MapError (Option V) :=
  (toBinary key).map fun bin =>
    match jsGet m.map bin with
    | none => none
    | some item => item.value

/-- Embedding of `BufferMap.prototype.has` (lines 59-61). -/
def BufferMap.has {V : Type} (m : BufferMap V) (key : JSKey) :
    Except MapError Bool :=
  (toBinary key).map fun bin => jsHas m.map bin

/-- Embedding of `BufferMap.prototype.set` (lines 69-72):
`this.map.set(toBinary(key), new BufferItem(key, value))`.  Returns the
state of `this` after the call together with the outcome; when `toBinary`
throws, `this.map` has not been touched, so the unchanged receiver is
returned with the error. -/
def BufferMap.set {V : Type} (m : BufferMap V) (key : JSKey)
    (value : Option V) : BufferMap V × Except MapError Unit :=
  match toBinary key with
  | .error e => (m, .error e)
  | .ok bin => (⟨jsSet m.map bin ⟨key, value⟩⟩, .ok ())

/-- Embedding of `BufferMap.prototype.delete` (lines 79-81):
`this.map.delete(toBinary(key))`, whose JS result is whether the key was
present. -/
def BufferMap.delete {V : Type} (m : BufferMap V) (key : JSKey) :
    BufferMap V × Except MapError Bool :=
  match toBinary key with
  | .error e => (m, .error e)
  | .ok bin => (⟨jsDel m.map bin⟩, .ok (jsHas m.map bin))

/-- Embedding of `BufferMap.prototype.clear` (lines 83-85). -/
def BufferMap.clear {V : Type} (_m : BufferMap V) : BufferMap V := ⟨[]⟩

/-- The sequence produced by the generator `entries()` (lines 91-94):
`[key, value]` pairs of the stored items, in native-map order. -/
def BufferMap.entriesList {V : Type} (m : BufferMap V) :
    List (JSKey × Option V) :=
  m.map.map fun p => (p.2.key, p.2.value)

/-- The sequence produced by the generator `keys()` (lines 96-99): stored
key objects in native-map order. -/
def BufferMap.keysList {V : Type} (m : BufferMap V) : List JSKey :=
  m.map.map fun p => p.2.key

/-- The sequence produced by the generator `values()` (lines 101-104). -/
def BufferMap.valuesList {V : Type} (m : BufferMap V) : List (Option V) :=
  m.map.map fun p => p.2.value

/-- Embedding of `BufferMap.prototype.forEach` (lines 106-112).  The
`func` argument is `none` when the JS typeof check rejects it (the
`InvalidCallback` TypeError is thrown before any entry is visited) and
`some f` when it is callable; the result records, in order, one
application `f value key this` per entry, modelling the calls
`func.call(self, value, key, this)`. -/
def BufferMap.forEach {V A : Type} (m : BufferMap V)
    (func : Option (Option V → JSKey → BufferMap V → A)) :
    Except MapError (List A) :=
  match func with
  | none => .error .invalidCallback
  | some f => .ok (m.map.map fun p => f p.2.value p.2.key m)

/-- Embedding of `BufferMap.prototype.toKeys` (lines 114-121): an eager
push loop over `this.map.values()`. -/
def BufferMap.toKeys {V : Type} (m : BufferMap V) : List JSKey :=
  m.map.foldl (fun out p => out ++ [p.2.key]) []

/-- Embedding of `BufferMap.prototype.toValues` (lines 123-130). -/
def BufferMap.toValues {V : Type} (m : BufferMap V) : List (Option V) :=
  m.map.foldl (fun out p => out ++ [p.2.value]) []

/-- Embedding of `BufferMap.prototype.toArray` (lines 132-134):
`return this.toValues();`. -/
def BufferMap.toArray {V : Type} (m : BufferMap V) : List (Option V) :=
  m.toValues

/-- Embedding of the constructor with an iterable (lines 26-34): start
from the empty map and `set` each pair in order.  A throw mid-iteration
aborts the construction: the error is recorded and later pairs are not
processed. -/
def BufferMap.ofList {V : Type} (l : List (JSKey × Option V)) :
    BufferMap V × Except MapError Unit :=
  l.foldl
    (fun acc p =>
      match acc.2 with
      | .error e => (acc.1, .error e)
      | .ok _ => acc.1.set p.1 p.2)
    (BufferMap.empty, .ok ())

/-! The `BufferSet` class (lines 150-253). -/

/-- Embedding of `BufferSet`: `this.map`, a JS `Map` from binary strings
to the stored key objects. -/
structure BufferSet where
  map : JSMap JSKey
deriving Repr

/-- A fresh `new BufferSet()` with no iterable argument. -/
def BufferSet.empty : BufferSet := ⟨[]⟩

/-- Embedding of the `size` getter (lines 166-168). -/
def BufferSet.size (s : BufferSet) : Nat := s.map.length

/-- Embedding of `BufferSet.prototype.has` (lines 175-177). -/
def BufferSet.has (s : BufferSet) (key : JSKey) : Except MapError Bool :=
  (toBinary key).map fun bin => jsHas s.map bin

/-- Embedding of `BufferSet.prototype.add` (lines 184-187):
`this.map.set(toBinary(key), key)`. -/
def BufferSet.add (s : BufferSet) (key : JSKey) :
    BufferSet × Except MapError Unit :=
  match toBinary key with
  | .error e => (s, .error e)
  | .ok bin => (⟨jsSet s.map bin key⟩, .ok ())

/-- Embedding of `BufferSet.prototype.delete` (lines 194-196). -/
def BufferSet.delete (s : BufferSet) (key : JSKey) :
    BufferSet × Except MapError Bool :=
  match toBinary key with
  | .error e => (s, .error e)
  | .ok bin => (⟨jsDel s.map bin⟩, .ok (jsHas s.map bin))

/-- Embedding of `BufferSet.prototype.clear` (lines 198-200). -/
def BufferSet.clear (_s : BufferSet) : BufferSet := ⟨[]⟩

/-- The sequence produced by `keys()` and by `values()` (lines 211-217):
`this.map.values()`, the stored key objects in native-map order. -/
def BufferSet.keysList (s : BufferSet) : List JSKey := s.map.map (·.2)

/-- The sequence produced by the generator `entries()` (lines 206-209):
`[key, key]` pairs. -/
def BufferSet.entriesList (s : BufferSet) : List (JSKey × JSKey) :=
  s.map.map fun p => (p.2, p.2)

/-- Embedding of `BufferSet.prototype.forEach` (lines 219-225), modelling
the calls `func.call(self, key, key, this)` as for `BufferMap.forEach`. -/
def BufferSet.forEach {A : Type} (s : BufferSet)
    (func : Option (JSKey → JSKey → BufferSet → A)) :
    Except MapError (List A) :=
  match func with
  | none => .error .invalidCallback
  | some f => .ok (s.map.map fun p => f p.2 p.2 s)

/-- Embedding of `BufferSet.prototype.toKeys` (lines 227-234): an eager
push loop over `this.map.values()`. -/
def BufferSet.toKeys (s : BufferSet) : List JSKey :=
  s.map.foldl (fun out p => out ++ [p.2]) []

/-- Embedding of `BufferSet.prototype.toValues` (lines 236-238):
`return this.toKeys();`. -/
def BufferSet.toValues (s : BufferSet) : List JSKey := s.toKeys

/-- Embedding of `BufferSet.prototype.toArray` (lines 240-242):
`return this.toKeys();`. -/
def BufferSet.toArray (s : BufferSet) : List JSKey := s.toKeys

/-! Basic facts about the normalizer. -/

theorem latin1Unit_injective : Function.Injective latin1Unit :=
  fun _ _ h => Fin.val_injective h

theorem bufToString_injective : Function.Injective bufToString :=
  List.map_injective_iff.mpr latin1Unit_injective

theorem toBinary_of_contents (k : JSKey) (bs : List Byte)
    (h : k.contents = some bs) : toBinary k = .ok (bufToString bs) := by
  cases k with
  | buffer b => simp [JSKey.contents] at h; simp [toBinary, encode, h]
  | view backing off len =>
      simp [JSKey.contents] at h
      simp [toBinary, encode, toBuffer, Except.map, h]
  | arrayBuffer sh b =>
      simp [JSKey.contents] at h
      simp [toBinary, encode, toBuffer, Except.map, viewBytes, h]
  | nonBuffer => simp [JSKey.contents] at h

theorem toBinary_of_contents_none (k : JSKey) (h : k.contents = none) :
    toBinary k = .error .invalidKeyType := by
  cases k with
  | buffer b => simp [JSKey.contents] at h
  | view backing off len => simp [JSKey.contents] at h
  | arrayBuffer sh b => simp [JSKey.contents] at h
  | nonBuffer => rfl

/-! Lemmas about the native-map model. -/

theorem jsHas_iff_mem {α : Type} (m : JSMap α) (k : List Nat) :
    jsHas m k = true ↔ k ∈ jsKeys m := by
  induction m with
  | nil => simp [jsHas, jsKeys]
  | cons p tl ih =>
      by_cases h : p.1 = k
      · simp [jsHas, jsKeys, h]
      · simp [jsHas, jsKeys, h, ih, Ne.symm h]

theorem jsGet_of_not_has {α : Type} (m : JSMap α) (k : List Nat)
    (h : jsHas m k = false) : jsGet m k = none := by
  induction m with
  | nil => rfl
  | cons p tl ih =>
      by_cases hp : p.1 = k
      · simp [jsHas, hp] at h
      · simp [jsHas, hp] at h
        simp [jsGet, hp, ih h]

theorem jsGet_append_self {α : Type} (m : JSMap α) (k : List Nat) (v : α)
    (h : jsHas m k = false) : jsGet (m ++ [(k, v)]) k = some v := by
  induction m with
  | nil => simp [jsGet]
  | cons p tl ih =>
      by_cases hp : p.1 = k
      · simp [jsHas, hp] at h
      · simp [jsHas, hp] at h
        simp [jsGet, hp, ih h]

theorem jsGet_jsReplace_self {α : Type} (m : JSMap α) (k : List Nat)
    (v : α) (h : jsHas m k = true) : jsGet (jsReplace m k v) k = some v := by
  induction m with
  | nil => simp [jsHas] at h
  | cons p tl ih =>
      by_cases hp : p.1 = k
      · simp [jsReplace, jsGet, hp]
      · simp [jsHas, hp] at h
        simp [jsReplace, jsGet, hp, ih h]

theorem jsGet_jsSet_self {α : Type} (m : JSMap α) (k : List Nat) (v : α) :
    jsGet (jsSet m k v) k = some v := by
  unfold jsSet
  by_cases h : jsHas m k
  · simp [h, jsGet_jsReplace_self m k v h]
  · simp at h
    simp [h, jsGet_append_self m k v h]

theorem jsKeys_jsReplace {α : Type} (m : JSMap α) (k : List Nat) (v : α) :
    jsKeys (jsReplace m k v) = jsKeys m := by
  induction m with
  | nil => rfl
  | cons p tl ih =>
      by_cases hp : p.1 = k
      · simp [jsReplace, jsKeys, hp]
      · simp [jsReplace, jsKeys, hp]
        simpa [jsKeys] using ih

theorem jsKeys_jsSet {α : Type} (m : JSMap α) (k : List Nat) (v : α) :
    jsKeys (jsSet m k v) =
      if jsHas m k then jsKeys m else jsKeys m ++ [k] := by
  unfold jsSet
  by_cases h : jsHas m k
  · simp [h, jsKeys_jsReplace]
  · simp [h, jsKeys]

theorem jsHas_jsSet_self {α : Type} (m : JSMap α) (k : List Nat) (v : α) :
    jsHas (jsSet m k v) k = true := by
  rw [jsHas_iff_mem, jsKeys_jsSet]
  by_cases h : jsHas m k
  · simp [h, ← jsHas_iff_mem, h]
  · simp [h]

theorem length_jsReplace {α : Type} (m : JSMap α) (k : List Nat) (v : α) :
    (jsReplace m k v).length = m.length := by
  induction m with
  | nil => rfl
  | cons p tl ih =>
      by_cases hp : p.1 = k
      · simp [jsReplace, hp]
      · simp [jsReplace, hp, ih]

theorem jsValues_jsReplace {α : Type} (m : JSMap α) (k : List Nat) (v : α)
    (hnd : (jsKeys m).Nodup) :
    jsValues (jsReplace m k v) =
      m.map fun p => if p.1 = k then v else p.2 := by
  induction m with
  | nil => rfl
  | cons p tl ih =>
      have hkeys : jsKeys (p :: tl) = p.1 :: jsKeys tl := rfl
      rw [hkeys, List.nodup_cons] at hnd
      by_cases hp : p.1 = k
      · subst hp
        simp only [jsReplace, if_pos rfl, jsValues, List.map_cons, if_pos rfl]
        have htl : tl.map (fun q => if q.1 = p.1 then v else q.2) =
            tl.map (fun q => q.2) := by
          apply List.map_congr_left
          intro q hq
          have : q.1 ≠ p.1 := by
            intro hc
            exact hnd.1 (hc ▸ List.mem_map_of_mem (fun x => x.1) hq)
          simp [this]
        rw [htl]
        rfl
      · simp only [jsReplace, if_neg hp, jsValues, List.map_cons, if_neg hp]
        rw [show jsValues (jsReplace tl k v) =
          List.map (fun x => x.2) (jsReplace tl k v) from rfl] at ih
        rw [ih hnd.2]

theorem jsDel_of_not_has {α : Type} (m : JSMap α) (k : List Nat)
    (h : jsHas m k = false) : jsDel m k = m := by
  induction m with
  | nil => rfl
  | cons p tl ih =>
      by_cases hp : p.1 = k
      · simp [jsHas, hp] at h
      · simp [jsHas, hp] at h
        simp [jsDel, hp, ih h]

theorem jsKeys_jsDel {α : Type} (m : JSMap α) (k : List Nat) :
    jsKeys (jsDel m k) = (jsKeys m).filter (fun x => x ≠ k) := by
  induction m with
  | nil => rfl
  | cons p tl ih =>
      have hkeys : jsKeys (p :: tl) = p.1 :: jsKeys tl := rfl
      by_cases hp : p.1 = k
      · simp [jsDel, hp, hkeys, List.filter_cons, ih]
      · have step : jsDel (p :: tl) k = p :: jsDel tl k := by simp [jsDel, hp]
        have hkeys2 : jsKeys (p :: jsDel tl k) = p.1 :: jsKeys (jsDel tl k) :=
          rfl
        rw [step, hkeys2, ih, hkeys, List.filter_cons]
        simp [hp]

theorem jsHas_jsDel_self {α : Type} (m : JSMap α) (k : List Nat) :
    jsHas (jsDel m k) k = false := by
  rw [Bool.eq_false_iff]
  intro hmem
  rw [jsHas_iff_mem, jsKeys_jsDel] at hmem
  have := List.of_mem_filter hmem
  simp at this

theorem jsHas_jsDel_other {α : Type} (m : JSMap α) (k k2 : List Nat)
    (h : k2 ≠ k) : jsHas (jsDel m k) k2 = jsHas m k2 := by
  induction m with
  | nil => rfl
  | cons p tl ih =>
      by_cases hp : p.1 = k
      · subst hp
        simp [jsDel, jsHas, Ne.symm h, ih]
      · by_cases hp2 : p.1 = k2
        · simp [jsDel, jsHas, hp, hp2, h]
        · simp [jsDel, jsHas, hp, hp2, ih]

theorem length_jsDel_of_has {α : Type} (m : JSMap α) (k : List Nat)
    (hnd : (jsKeys m).Nodup) (h : jsHas m k = true) :
    (jsDel m k).length + 1 = m.length := by
  induction m with
  | nil => simp [jsHas] at h
  | cons p tl ih =>
      simp only [jsKeys, List.map_cons, List.nodup_cons] at hnd
      by_cases hp : p.1 = k
      · subst hp
        have hno : jsHas tl p.1 = false := by
          rw [Bool.eq_false_iff]
          intro hc
          exact hnd.1 ((jsHas_iff_mem tl p.1).mp hc)
        simp [jsDel, jsDel_of_not_has tl p.1 hno]
      · simp [jsHas, hp] at h
        have := ih (by simpa [jsKeys] using hnd.2) h
        simp [jsDel, hp]
        omega

/-! Well-formedness: a JS `Map` never holds two bindings of one key, so
the key lists of reachable container states are duplicate-free. -/

/-- A `BufferMap` state is well formed when its native string keys are
pairwise distinct.  Every state reachable through the public API is well
formed (empty maps are, and `set`, `delete`, `clear` preserve it). -/
def BufferMap.WF {V : Type} (m : BufferMap V) : Prop := (jsKeys m.map).Nodup

/-- A `BufferSet` state is well formed when its native string keys are
pairwise distinct. -/
def BufferSet.WF (s : BufferSet) : Prop := (jsKeys s.map).Nodup

theorem jsKeys_nodup_jsSet {α : Type} (m : JSMap α) (k : List Nat) (v : α)
    (h : (jsKeys m).Nodup) : (jsKeys (jsSet m k v)).Nodup := by
  rw [jsKeys_jsSet]
  by_cases hh : jsHas m k
  · simp [hh, h]
  · simp only [hh, if_false, Bool.false_eq_true]
    rw [List.nodup_append]
    refine ⟨h, List.nodup_singleton k, ?_⟩
    intro x hx hk
    simp at hk
    subst hk
    exact absurd ((jsHas_iff_mem m x).mpr hx) (by simpa using hh)

theorem jsKeys_nodup_jsDel {α : Type} (m : JSMap α) (k : List Nat)
    (h : (jsKeys m).Nodup) : (jsKeys (jsDel m k)).Nodup := by
  rw [jsKeys_jsDel]
  exact h.filter _

theorem mapWF_empty {V : Type} : (BufferMap.empty (V := V)).WF :=
  List.nodup_nil

theorem mapWF_set {V : Type} (m : BufferMap V) (k : JSKey)
    (v : Option V) (h : m.WF) : (m.set k v).1.WF := by
  unfold BufferMap.set
  cases ht : toBinary k with
  | error e => exact h
  | ok bin => exact jsKeys_nodup_jsSet m.map bin _ h

theorem mapWF_delete {V : Type} (m : BufferMap V) (k : JSKey)
    (h : m.WF) : (m.delete k).1.WF := by
  unfold BufferMap.delete
  cases ht : toBinary k with
  | error e => exact h
  | ok bin => exact jsKeys_nodup_jsDel m.map bin h

theorem setWF_empty : BufferSet.empty.WF := List.nodup_nil

theorem setWF_add (s : BufferSet) (k : JSKey) (h : s.WF) :
    (s.add k).1.WF := by
  unfold BufferSet.add
  cases ht : toBinary k with
  | error e => exact h
  | ok bin => exact jsKeys_nodup_jsSet s.map bin _ h

theorem setWF_delete (s : BufferSet) (k : JSKey) (h : s.WF) :
    (s.delete k).1.WF := by
  unfold BufferSet.delete
  cases ht : toBinary k with
  | error e => exact h
  | ok bin => exact jsKeys_nodup_jsDel s.map bin h

/-! Claim theorems. -/

/-- C1: content equality.  For any two byte-bearing inputs `a` and `b`
whose byte sequences are identical (whatever their allocation, viewing
offset, or subtype — Buffer, view, or (Shared)ArrayBuffer), after
`map.set(a, v)` both `map.get(b)` returns `v` and `map.has(b)` returns
true. -/
theorem claim_C1 {V : Type} (m : BufferMap V) (a b : JSKey)
    (bs : List Byte) (v : V) (ha : a.contents = some bs)
    (hb : b.contents = some bs) :
    ((m.set a (some v)).1.get b = .ok (some v)) ∧
    ((m.set a (some v)).1.has b = .ok true) := by
  have hta := toBinary_of_contents a bs ha
  have htb := toBinary_of_contents b bs hb
  constructor
  · simp [BufferMap.set, hta, BufferMap.get, htb, Except.map,
      jsGet_jsSet_self]
  · simp [BufferMap.set, hta, BufferMap.has, htb, Except.map,
      jsHas_jsSet_self]

/-- Witness for C1: storing 42 under the one-byte Buffer `[1]` and
retrieving it through a one-byte view at offset 1 of the two-byte backing
buffer `[0, 1]`. -/
theorem claim_C1_witness :
    (JSKey.buffer [(1 : Byte)]).contents = some [(1 : Byte)] ∧
    (JSKey.view [(0 : Byte), 1] 1 1).contents = some [(1 : Byte)] ∧
    (((BufferMap.empty (V := Nat)).set (JSKey.buffer [1])
        (some 42)).1.get (JSKey.view [0, 1] 1 1) = .ok (some 42)) ∧
    (((BufferMap.empty (V := Nat)).set (JSKey.buffer [1])
        (some 42)).1.has (JSKey.view [0, 1] 1 1) = .ok true) := by
  refine ⟨rfl, rfl, ?_⟩
  exact claim_C1 BufferMap.empty (JSKey.buffer [1])
    (JSKey.view [0, 1] 1 1) [1] 42 rfl rfl

/-- C2: error handling and atomicity.  For every container state and
every non-byte-bearing key, each of `get`, `has`, `set`, `delete` on a
`BufferMap` and `has`, `add`, `delete` on a `BufferSet` fails with the
`InvalidKeyType` TypeError, and the state afterwards is exactly the state
before the call. -/
theorem claim_C2 {V : Type} (m : BufferMap V) (s : BufferSet) (k : JSKey)
    (v : Option V) (h : k.contents = none) :
    m.get k = .error .invalidKeyType ∧
    m.has k = .error .invalidKeyType ∧
    m.set k v = (m, .error .invalidKeyType) ∧
    m.delete k = (m, .error .invalidKeyType) ∧
    s.has k = .error .invalidKeyType ∧
    s.add k = (s, .error .invalidKeyType) ∧
    s.delete k = (s, .error .invalidKeyType) := by
  have ht := toBinary_of_contents_none k h
  refine ⟨?_, ?_, ?_, ?_, ?_, ?_, ?_⟩ <;>
    simp [BufferMap.get, BufferMap.has, BufferMap.set, BufferMap.delete,
      BufferSet.has, BufferSet.add, BufferSet.delete, ht, Except.map]

/-- Witness for C2: a non-buffer key against a one-entry map and an empty
set. -/
theorem claim_C2_witness :
    JSKey.nonBuffer.contents = none ∧
    (((BufferMap.empty (V := Nat)).set (JSKey.buffer [7])
        (some 1)).1.get JSKey.nonBuffer = .error .invalidKeyType) := by
  refine ⟨rfl, ?_⟩
  exact (claim_C2 ((BufferMap.empty (V := Nat)).set (JSKey.buffer [7])
    (some 1)).1 BufferSet.empty JSKey.nonBuffer none rfl).1

/-- C3: normalizer bijectivity.  `toBinary` maps each octet to a single
reversible code unit (`latin1Unit` is injective), so the canonical keys of
two byte-bearing inputs are equal exactly when their byte sequences are
identical in length and content; the empty sequence has its own legal
canonical key (the empty string), distinct from every other by the same
equivalence. -/
theorem claim_C3 (k1 k2 : JSKey) (bs1 bs2 : List Byte)
    (h1 : k1.contents = some bs1) (h2 : k2.contents = some bs2) :
    Function.Injective latin1Unit ∧
    (toBinary k1 = toBinary k2 ↔ bs1 = bs2) ∧
    toBinary (JSKey.buffer []) = .ok [] := by
  refine ⟨latin1Unit_injective, ?_, rfl⟩
  rw [toBinary_of_contents k1 bs1 h1, toBinary_of_contents k2 bs2 h2]
  constructor
  · intro h
    simp only [Except.ok.injEq] at h
    exact bufToString_injective h
  · intro h
    rw [h]

/-- Witness for C3: a Buffer holding `[2, 3]` and an ArrayBuffer holding
`[2, 4]` have different canonical keys because their contents differ. -/
theorem claim_C3_witness :
    (JSKey.buffer [(2 : Byte), 3]).contents = some [(2 : Byte), 3] ∧
    (JSKey.arrayBuffer false [(2 : Byte), 4]).contents =
      some [(2 : Byte), 4] ∧
    (toBinary (JSKey.buffer [2, 3]) =
        toBinary (JSKey.arrayBuffer false [2, 4]) ↔
      ([(2 : Byte), 3] : List Byte) = [2, 4]) := by
  refine ⟨rfl, rfl, ?_⟩
  exact (claim_C3 (JSKey.buffer [2, 3]) (JSKey.arrayBuffer false [2, 4])
    [2, 3] [2, 4] rfl rfl).2.1

/-- C10: the absent sentinel of `get` collides with a stored `undefined`
value.  After `set(k, undefined)`, `get(k)` returns `undefined` — the same
result `get` gives for any key it reports absent — while `has(k)` returns
true, so presence must be tested with `has`. -/
theorem claim_C10 {V : Type} (m : BufferMap V) (k : JSKey)
    (bs : List Byte) (h : k.contents = some bs) :
    ((m.set k none).1.get k = .ok none) ∧
    ((m.set k none).1.has k = .ok true) ∧
    (∀ m0 : BufferMap V, m0.has k = .ok false → m0.get k = .ok none) := by
  have ht := toBinary_of_contents k bs h
  refine ⟨?_, ?_, ?_⟩
  · simp [BufferMap.set, ht, BufferMap.get, Except.map, jsGet_jsSet_self]
  · simp [BufferMap.set, ht, BufferMap.has, Except.map, jsHas_jsSet_self]
  · intro m0 h0
    simp only [BufferMap.has, ht, Except.map, Except.ok.injEq] at h0
    simp [BufferMap.get, ht, Except.map, jsGet_of_not_has m0.map _ h0]

/-- Witness for C10: storing `undefined` under the Buffer `[5]` in the
empty map. -/
theorem claim_C10_witness :
    (JSKey.buffer [(5 : Byte)]).contents = some [(5 : Byte)] ∧
    (((BufferMap.empty (V := Nat)).set (JSKey.buffer [5]) none).1.get
        (JSKey.buffer [5]) = .ok none) ∧
    (((BufferMap.empty (V := Nat)).set (JSKey.buffer [5]) none).1.has
        (JSKey.buffer [5]) = .ok true) := by
  refine ⟨rfl, ?_⟩
  have h := claim_C10 (BufferMap.empty (V := Nat)) (JSKey.buffer [5])
    [5] rfl
  exact ⟨h.1, h.2.1⟩

/-- Accumulating push loop over a list, as in the `toKeys`/`toValues`
bodies, equals mapping over the list. -/
theorem foldl_push_eq_map {β γ : Type} (l : List β) (f : β → γ)
    (init : List γ) :
    l.foldl (fun out a => out ++ [f a]) init = init ++ l.map f := by
  induction l generalizing init with
  | nil => simp
  | cons a tl ih => simp [ih]

/-- C8: forEach contract.  With a non-invocable argument, `forEach` on
either container fails with the `InvalidCallback` TypeError before any
entry is visited (no call is recorded, and the model is pure so the state
is untouched); with an invocable callback, a `BufferMap` records exactly
one call `callback(value, key, map)` per entry and a `BufferSet` exactly
one call `callback(key, key, set)` per entry, in iteration order. -/
theorem claim_C8 {V A B : Type} (m : BufferMap V) (s : BufferSet)
    (f : Option V → JSKey → BufferMap V → A)
    (g : JSKey → JSKey → BufferSet → B) :
    m.forEach (none : Option (Option V → JSKey → BufferMap V → A)) =
      .error .invalidCallback ∧
    m.forEach (some f) = .ok (m.entriesList.map fun e => f e.2 e.1 m) ∧
    s.forEach (none : Option (JSKey → JSKey → BufferSet → B)) =
      .error .invalidCallback ∧
    s.forEach (some g) = .ok (s.keysList.map fun k => g k k s) := by
  refine ⟨rfl, ?_, rfl, ?_⟩
  · simp [BufferMap.forEach, BufferMap.entriesList, List.map_map,
      Function.comp]
  · simp [BufferSet.forEach, BufferSet.keysList, List.map_map,
      Function.comp]

/-- C9: materializer equivalence.  `BufferMap.toKeys` is the eager list
produced by `keys()`, `toValues` and `toArray` both equal the eager list
produced by `values()`, and the three `BufferSet` materializers all equal
the list of stored key objects in insertion order. -/
theorem claim_C9 {V : Type} (m : BufferMap V) (s : BufferSet) :
    m.toKeys = m.keysList ∧
    m.toValues = m.valuesList ∧
    m.toArray = m.valuesList ∧
    s.toArray = s.keysList ∧
    s.toKeys = s.keysList ∧
    s.toValues = s.keysList := by
  refine ⟨?_, ?_, ?_, ?_, ?_, ?_⟩ <;>
    simp [BufferMap.toKeys, BufferMap.toValues, BufferMap.toArray,
      BufferMap.keysList, BufferMap.valuesList, BufferSet.toKeys,
      BufferSet.toValues, BufferSet.toArray, BufferSet.keysList,
      foldl_push_eq_map]

/-- C7: deletion.  On a well-formed container (every reachable state is,
by the `WF` preservation lemmas), `delete` with a byte-bearing key whose
content is present returns true, removes exactly that entry (its own
content becomes absent, every other content keeps its presence) and
decrements `size` by exactly 1; with a byte-bearing key whose content is
absent it returns false and leaves the state unchanged. -/
theorem claim_C7 {V : Type} (m : BufferMap V) (s : BufferSet) (k : JSKey)
    (bs : List Byte) (hk : k.contents = some bs) (hm : m.WF) (hs : s.WF) :
    (m.has k = .ok true →
      (m.delete k).2 = .ok true ∧
      (m.delete k).1.size + 1 = m.size ∧
      (m.delete k).1.has k = .ok false ∧
      (∀ (k2 : JSKey) (bs2 : List Byte), k2.contents = some bs2 →
        bs2 ≠ bs → (m.delete k).1.has k2 = m.has k2)) ∧
    (m.has k = .ok false →
      (m.delete k).2 = .ok false ∧ (m.delete k).1 = m) ∧
    (s.has k = .ok true →
      (s.delete k).2 = .ok true ∧
      (s.delete k).1.size + 1 = s.size ∧
      (s.delete k).1.has k = .ok false) ∧
    (s.has k = .ok false →
      (s.delete k).2 = .ok false ∧ (s.delete k).1 = s) := by
  have ht := toBinary_of_contents k bs hk
  refine ⟨?_, ?_, ?_, ?_⟩
  · intro hpres
    simp only [BufferMap.has, ht, Except.map, Except.ok.injEq] at hpres
    refine ⟨?_, ?_, ?_, ?_⟩
    · simp [BufferMap.delete, ht, hpres]
    · simpa [BufferMap.delete, ht, BufferMap.size] using
        length_jsDel_of_has m.map (bufToString bs) hm hpres
    · simp [BufferMap.delete, ht, BufferMap.has, Except.map,
        jsHas_jsDel_self]
    · intro k2 bs2 hk2 hne
      have ht2 := toBinary_of_contents k2 bs2 hk2
      have hneq : bufToString bs2 ≠ bufToString bs :=
        fun hc => hne (bufToString_injective hc)
      simp [BufferMap.delete, ht, BufferMap.has, ht2, Except.map,
        jsHas_jsDel_other m.map (bufToString bs) (bufToString bs2) hneq]
  · intro habs
    simp only [BufferMap.has, ht, Except.map, Except.ok.injEq] at habs
    refine ⟨?_, ?_⟩
    · simp [BufferMap.delete, ht, habs]
    · simp [BufferMap.delete, ht, jsDel_of_not_has m.map _ habs]
  · intro hpres
    simp only [BufferSet.has, ht, Except.map, Except.ok.injEq] at hpres
    refine ⟨?_, ?_, ?_⟩
    · simp [BufferSet.delete, ht, hpres]
    · simpa [BufferSet.delete, ht, BufferSet.size] using
        length_jsDel_of_has s.map (bufToString bs) hs hpres
    · simp [BufferSet.delete, ht, BufferSet.has, Except.map,
        jsHas_jsDel_self]
  · intro habs
    simp only [BufferSet.has, ht, Except.map, Except.ok.injEq] at habs
    refine ⟨?_, ?_⟩
    · simp [BufferSet.delete, ht, habs]
    · simp [BufferSet.delete, ht, jsDel_of_not_has s.map _ habs]

/-- Witness for C7: deleting the Buffer `[1]` from the one-entry map
built by inserting it, and from the empty set where it is absent. -/
theorem claim_C7_witness :
    ((JSKey.buffer [(1 : Byte)]).contents = some [(1 : Byte)]) ∧
    (((BufferMap.empty (V := Nat)).set (JSKey.buffer [1])
        (some 7)).1.has (JSKey.buffer [1]) = .ok true) ∧
    ((((BufferMap.empty (V := Nat)).set (JSKey.buffer [1])
        (some 7)).1.delete (JSKey.buffer [1])).2 = .ok true) ∧
    ((((BufferMap.empty (V := Nat)).set (JSKey.buffer [1])
        (some 7)).1.delete (JSKey.buffer [1])).1.size + 1 =
      ((BufferMap.empty (V := Nat)).set (JSKey.buffer [1])
        (some 7)).1.size) ∧
    (BufferSet.empty.has (JSKey.buffer [1]) = .ok false) ∧
    ((BufferSet.empty.delete (JSKey.buffer [1])).2 = .ok false) := by
  have hwfm : ((BufferMap.empty (V := Nat)).set (JSKey.buffer [1])
      (some 7)).1.WF :=
    mapWF_set BufferMap.empty (JSKey.buffer [1]) (some 7)
      mapWF_empty
  refine ⟨rfl, rfl, ?_, ?_, rfl, ?_⟩
  · exact (claim_C7 ((BufferMap.empty (V := Nat)).set (JSKey.buffer [1])
      (some 7)).1 BufferSet.empty (JSKey.buffer [1]) [1] rfl
      hwfm setWF_empty).1 rfl |>.1
  · exact (claim_C7 ((BufferMap.empty (V := Nat)).set (JSKey.buffer [1])
      (some 7)).1 BufferSet.empty (JSKey.buffer [1]) [1] rfl
      hwfm setWF_empty).1 rfl |>.2.1
  · exact ((claim_C7 ((BufferMap.empty (V := Nat)).set (JSKey.buffer [1])
      (some 7)).1 BufferSet.empty (JSKey.buffer [1]) [1] rfl
      hwfm setWF_empty).2.2.2 rfl).1

/-- C4: overwrite semantics.  Starting from any well-formed map state,
`set(k1, v1)` then `set(k2, v2)` with `k1`, `k2` content-equal leaves
`size` unchanged relative to after the first set, makes `get` of any
content-equal key return `v2`, and leaves iteration yielding the key
object `k2` at the overwritten entry while every other entry keeps its key
object and its position (the key list after the second set is the key list
after the first with only the entry of that content rebound to `k2`); the
initial pair sequence of the constructor produces the same state as the two
`set` calls in order. -/
theorem claim_C4 {V : Type} (m : BufferMap V) (k1 k2 : JSKey)
    (bs : List Byte) (v1 v2 : Option V) (h1 : k1.contents = some bs)
    (h2 : k2.contents = some bs) (hWF : m.WF) :
    (((m.set k1 v1).1.set k2 v2).1.size = (m.set k1 v1).1.size) ∧
    (∀ k3 : JSKey, k3.contents = some bs →
      ((m.set k1 v1).1.set k2 v2).1.get k3 = .ok v2) ∧
    (((m.set k1 v1).1.set k2 v2).1.keysList =
      (m.set k1 v1).1.map.map
        (fun p => if p.1 = bufToString bs then k2 else p.2.key)) ∧
    (BufferMap.ofList [(k1, v1), (k2, v2)] =
      (((BufferMap.empty.set k1 v1).1.set k2 v2).1, .ok ())) := by
  have ht1 := toBinary_of_contents k1 bs h1
  have ht2 := toBinary_of_contents k2 bs h2
  have hm1 : (m.set k1 v1).1.map =
      jsSet m.map (bufToString bs) ⟨k1, v1⟩ := by
    simp [BufferMap.set, ht1]
  have hWF1 : ((m.set k1 v1).1.map |> jsKeys).Nodup :=
    mapWF_set m k1 v1 hWF
  have hhas1 : jsHas (m.set k1 v1).1.map (bufToString bs) = true := by
    rw [hm1]; exact jsHas_jsSet_self m.map (bufToString bs) _
  have hm2 : ((m.set k1 v1).1.set k2 v2).1.map =
      jsReplace (m.set k1 v1).1.map (bufToString bs) ⟨k2, v2⟩ := by
    generalize hg : (m.set k1 v1).1 = m1 at hhas1 ⊢
    simp only [BufferMap.set, ht2]
    unfold jsSet
    rw [if_pos hhas1]
  refine ⟨?_, ?_, ?_, ?_⟩
  · simp [BufferMap.size, hm2, length_jsReplace]
  · intro k3 h3
    have ht3 := toBinary_of_contents k3 bs h3
    have : jsGet ((m.set k1 v1).1.set k2 v2).1.map (bufToString bs) =
        some ⟨k2, v2⟩ := by
      rw [hm2]
      exact jsGet_jsReplace_self _ _ _ hhas1
    simp [BufferMap.get, ht3, Except.map, this]
  · have hvals := jsValues_jsReplace (m.set k1 v1).1.map
      (bufToString bs) (⟨k2, v2⟩ : BufferItem V) hWF1
    have : ((m.set k1 v1).1.set k2 v2).1.keysList =
        (jsValues (jsReplace (m.set k1 v1).1.map (bufToString bs)
          ⟨k2, v2⟩)).map (fun item => item.key) := by
      simp [BufferMap.keysList, hm2, jsValues, List.map_map,
        Function.comp]
    rw [this, hvals, List.map_map]
    apply List.map_congr_left
    intro p _
    by_cases hp : p.1 = bufToString bs <;> simp [hp, Function.comp]
  · simp [BufferMap.ofList, BufferMap.set, ht1, ht2]

/-- Witness for C4: overwriting the value stored under content `[9]`
through a second, content-equal key object, starting from the empty map;
matches scenario 4 of the spec. -/
theorem claim_C4_witness :
    ((JSKey.buffer [(9 : Byte)]).contents = some [(9 : Byte)]) ∧
    ((JSKey.view [(9 : Byte)] 0 1).contents = some [(9 : Byte)]) ∧
    ((((BufferMap.empty (V := Nat)).set (JSKey.buffer [9])
          (some 0)).1.set (JSKey.view [9] 0 1) (some 1)).1.size =
      ((BufferMap.empty (V := Nat)).set (JSKey.buffer [9])
        (some 0)).1.size) ∧
    ((((BufferMap.empty (V := Nat)).set (JSKey.buffer [9])
          (some 0)).1.set (JSKey.view [9] 0 1) (some 1)).1.get
        (JSKey.buffer [9]) = .ok (some 1)) := by
  have h := claim_C4 (BufferMap.empty (V := Nat)) (JSKey.buffer [9])
    (JSKey.view [9] 0 1) [9] (some 0) (some 1) rfl rfl
    mapWF_empty
  exact ⟨rfl, rfl, h.1, h.2.1 (JSKey.buffer [9]) rfl⟩

/-- C5: iteration order.  Inserting keys `A`, `B`, `C` of pairwise
distinct contents into an empty map, in that order, makes `keys()` yield
exactly `[A, B, C]`; re-setting the content of `B` afterwards with a new
key object `B2` leaves the entry position unchanged — `keys()` then yields
`[A, B2, C]`, only the stored key reference having changed. -/
theorem claim_C5 {V : Type} (A B C B2 : JSKey) (as bs cs : List Byte)
    (va vb vc vb2 : Option V)
    (hA : A.contents = some as) (hB : B.contents = some bs)
    (hC : C.contents = some cs) (hB2 : B2.contents = some bs)
    (hab : as ≠ bs) (hac : as ≠ cs) (hbc : bs ≠ cs) :
    ((((BufferMap.empty.set A va).1.set B vb).1.set C vc).1.keysList =
      [A, B, C]) ∧
    (((((BufferMap.empty.set A va).1.set B vb).1.set C
        vc).1.set B2 vb2).1.keysList = [A, B2, C]) := by
  have htA := toBinary_of_contents A as hA
  have htB := toBinary_of_contents B bs hB
  have htC := toBinary_of_contents C cs hC
  have htB2 := toBinary_of_contents B2 bs hB2
  have hab' : bufToString as ≠ bufToString bs :=
    fun hc => hab (bufToString_injective hc)
  have hac' : bufToString as ≠ bufToString cs :=
    fun hc => hac (bufToString_injective hc)
  have hbc' : bufToString bs ≠ bufToString cs :=
    fun hc => hbc (bufToString_injective hc)
  have hm3 : ((((BufferMap.empty (V := V)).set A va).1.set B
      vb).1.set C vc).1.map =
      [(bufToString as, ⟨A, va⟩), (bufToString bs, ⟨B, vb⟩),
        (bufToString cs, ⟨C, vc⟩)] := by
    simp [BufferMap.empty, BufferMap.set, htA, htB, htC, jsSet, jsHas,
      jsReplace, hab', hac', hbc', Ne.symm hab', Ne.symm hac',
      Ne.symm hbc']
  constructor
  · simp [BufferMap.keysList, hm3]
  · have hm4 : (((((BufferMap.empty (V := V)).set A va).1.set B
        vb).1.set C vc).1.set B2 vb2).1.map =
        [(bufToString as, ⟨A, va⟩), (bufToString bs, ⟨B2, vb2⟩),
          (bufToString cs, ⟨C, vc⟩)] := by
      generalize hg : ((((BufferMap.empty (V := V)).set A va).1.set B
        vb).1.set C vc).1 = m3 at hm3 ⊢
      simp only [BufferMap.set, htB2]
      rw [hm3]
      simp [jsSet, jsHas, jsReplace, hab', Ne.symm hbc']
    simp [BufferMap.keysList, hm4]

/-- Witness for C5: the one-byte Buffers `[1]`, `[2]`, `[3]` inserted in
order, then content `[2]` re-set through a view object. -/
theorem claim_C5_witness :
    ((((BufferMap.empty (V := Nat)).set (JSKey.buffer [1])
        (some 0)).1.set (JSKey.buffer [2]) (some 0)).1.set
        (JSKey.buffer [3]) (some 0)).1.keysList =
      [JSKey.buffer [1], JSKey.buffer [2], JSKey.buffer [3]] ∧
    (((((BufferMap.empty (V := Nat)).set (JSKey.buffer [1])
        (some 0)).1.set (JSKey.buffer [2]) (some 0)).1.set
        (JSKey.buffer [3]) (some 0)).1.set (JSKey.view [2] 0 1)
        (some 9)).1.keysList =
      [JSKey.buffer [1], JSKey.view [2] 0 1, JSKey.buffer [3]] := by
  exact claim_C5 (JSKey.buffer [1]) (JSKey.buffer [2])
    (JSKey.buffer [3]) (JSKey.view [2] 0 1) [1] [2] [3]
    (some 0) (some 0) (some 0) (some 9) rfl rfl rfl rfl
    (by decide) (by decide) (by decide)

/-! Operation sequences, for the size invariant (C6). -/

/-- One mutating `BufferMap` operation. -/
inductive MapOp (V : Type) where
  | setOp : JSKey → Option V → MapOp V
  | delOp : JSKey → MapOp V
  | clearOp : MapOp V

/-- Run one operation against a map state (errors leave the state as the
operation returned it, i.e. unchanged). -/
def BufferMap.applyOp {V : Type} (m : BufferMap V) : MapOp V → BufferMap V
  | .setOp k v => (m.set k v).1
  | .delOp k => (m.delete k).1
  | .clearOp => m.clear

/-- Run a sequence of operations from a starting state. -/
def BufferMap.applyOps {V : Type} (m : BufferMap V)
    (ops : List (MapOp V)) : BufferMap V :=
  ops.foldl BufferMap.applyOp m

/-- One mutating `BufferSet` operation. -/
inductive SetOp where
  | addOp : JSKey → SetOp
  | delOp : JSKey → SetOp
  | clearOp : SetOp

/-- Run one operation against a set state. -/
def BufferSet.applyOp (s : BufferSet) : SetOp → BufferSet
  | .addOp k => (s.add k).1
  | .delOp k => (s.delete k).1
  | .clearOp => s.clear

/-- Run a sequence of operations from a starting state. -/
def BufferSet.applyOps (s : BufferSet) (ops : List SetOp) : BufferSet :=
  ops.foldl BufferSet.applyOp s

/-- Whether the operation key is byte-bearing (`clear` takes none). -/
def MapOp.byteBearing {V : Type} : MapOp V → Bool
  | .setOp k _ => k.contents.isSome
  | .delOp k => k.contents.isSome
  | .clearOp => true

/-- Whether the operation key is byte-bearing (`clear` takes none). -/
def SetOp.byteBearing : SetOp → Bool
  | .addOp k => k.contents.isSome
  | .delOp k => k.contents.isSome
  | .clearOp => true

/-- Spec-side accounting: record a newly inserted content, keeping the
list of present contents duplicate-free and in first-insertion order. -/
def specInsert (acc : List (List Byte)) (bs : List Byte) :
    List (List Byte) :=
  if bs ∈ acc then acc else acc ++ [bs]

/-- Spec-side accounting: remove a deleted content. -/
def specRemove (acc : List (List Byte)) (bs : List Byte) :
    List (List Byte) :=
  acc.filter (fun c => c ≠ bs)

/-- Spec-side accounting for one map operation, directly from the claim:
the distinct byte contents inserted and not yet deleted. -/
def specStepMap {V : Type} (acc : List (List Byte)) :
    MapOp V → List (List Byte)
  | .setOp k _ =>
      match k.contents with
      | some bs => specInsert acc bs
      | none => acc
  | .delOp k =>
      match k.contents with
      | some bs => specRemove acc bs
      | none => acc
  | .clearOp => []

/-- The distinct contents present after a map operation sequence. -/
def specContentsMap {V : Type} (ops : List (MapOp V)) :
    List (List Byte) :=
  ops.foldl specStepMap []

/-- Spec-side accounting for one set operation. -/
def specStepSet (acc : List (List Byte)) : SetOp → List (List Byte)
  | .addOp k =>
      match k.contents with
      | some bs => specInsert acc bs
      | none => acc
  | .delOp k =>
      match k.contents with
      | some bs => specRemove acc bs
      | none => acc
  | .clearOp => []

/-- The distinct contents present after a set operation sequence. -/
def specContentsSet (ops : List SetOp) : List (List Byte) :=
  ops.foldl specStepSet []

theorem filter_ne_map_bufToString (acc : List (List Byte))
    (bs : List Byte) :
    (acc.map bufToString).filter (fun x => x ≠ bufToString bs) =
      (acc.filter (fun c => c ≠ bs)).map bufToString := by
  induction acc with
  | nil => rfl
  | cons a tl ih =>
      simp only [decide_not] at ih ⊢
      by_cases h : a = bs
      · subst h
        simp [List.filter_cons, ih]
      · have hne : bufToString a ≠ bufToString bs :=
          fun hc => h (bufToString_injective hc)
        simp [List.filter_cons, h, hne, ih]

theorem jsSet_spec {α : Type} (l : JSMap α) (acc : List (List Byte))
    (bs : List Byte) (v : α)
    (hrel : jsKeys l = acc.map bufToString) (hnd : acc.Nodup) :
    jsKeys (jsSet l (bufToString bs) v) =
      (specInsert acc bs).map bufToString ∧ (specInsert acc bs).Nodup := by
  rw [jsKeys_jsSet]
  by_cases hmem : bs ∈ acc
  · have hh : jsHas l (bufToString bs) = true := by
      rw [jsHas_iff_mem, hrel]
      exact List.mem_map_of_mem _ hmem
    simp [hh, specInsert, hmem, hrel, hnd]
  · have hh : jsHas l (bufToString bs) = false := by
      rw [Bool.eq_false_iff]
      intro hc
      rw [jsHas_iff_mem, hrel, List.mem_map] at hc
      obtain ⟨x, hx, hfx⟩ := hc
      exact hmem (bufToString_injective hfx ▸ hx)
    refine ⟨?_, ?_⟩
    · simp [hh, specInsert, hmem, hrel]
    · simp only [specInsert, if_neg hmem]
      rw [List.nodup_append]
      refine ⟨hnd, List.nodup_singleton _, ?_⟩
      intro x hx hx2
      simp only [List.mem_singleton] at hx2
      subst hx2
      exact hmem hx

theorem jsDel_spec {α : Type} (l : JSMap α) (acc : List (List Byte))
    (bs : List Byte)
    (hrel : jsKeys l = acc.map bufToString) (hnd : acc.Nodup) :
    jsKeys (jsDel l (bufToString bs)) =
      (specRemove acc bs).map bufToString ∧ (specRemove acc bs).Nodup := by
  refine ⟨?_, hnd.filter _⟩
  rw [jsKeys_jsDel, hrel, specRemove, filter_ne_map_bufToString]

theorem applyOp_spec {V : Type} (m : BufferMap V) (acc : List (List Byte))
    (op : MapOp V) (hrel : jsKeys m.map = acc.map bufToString)
    (hnd : acc.Nodup) :
    jsKeys (m.applyOp op).map = (specStepMap acc op).map bufToString ∧
      (specStepMap acc op).Nodup := by
  cases op with
  | setOp k v =>
      cases hk : k.contents with
      | none =>
          have ht := toBinary_of_contents_none k hk
          simpa [BufferMap.applyOp, BufferMap.set, ht, specStepMap, hk]
            using ⟨hrel, hnd⟩
      | some bs =>
          have ht := toBinary_of_contents k bs hk
          have h2 := jsSet_spec m.map acc bs (⟨k, v⟩ : BufferItem V)
            hrel hnd
          simpa [BufferMap.applyOp, BufferMap.set, ht, specStepMap, hk]
            using h2
  | delOp k =>
      cases hk : k.contents with
      | none =>
          have ht := toBinary_of_contents_none k hk
          simpa [BufferMap.applyOp, BufferMap.delete, ht, specStepMap, hk]
            using ⟨hrel, hnd⟩
      | some bs =>
          have ht := toBinary_of_contents k bs hk
          have h2 := jsDel_spec m.map acc bs hrel hnd
          simpa [BufferMap.applyOp, BufferMap.delete, ht, specStepMap, hk]
            using h2
  | clearOp =>
      simp [BufferMap.applyOp, BufferMap.clear, specStepMap, jsKeys]

theorem applyOps_spec {V : Type} (ops : List (MapOp V)) (m : BufferMap V)
    (acc : List (List Byte))
    (hrel : jsKeys m.map = acc.map bufToString) (hnd : acc.Nodup) :
    jsKeys (m.applyOps ops).map =
      (ops.foldl specStepMap acc).map bufToString ∧
      (ops.foldl specStepMap acc).Nodup := by
  induction ops generalizing m acc with
  | nil => exact ⟨hrel, hnd⟩
  | cons op tl ih =>
      have h := applyOp_spec m acc op hrel hnd
      simpa [BufferMap.applyOps, List.foldl_cons] using
        ih (m.applyOp op) (specStepMap acc op) h.1 h.2

theorem applySetOp_spec (s : BufferSet) (acc : List (List Byte))
    (op : SetOp) (hrel : jsKeys s.map = acc.map bufToString)
    (hnd : acc.Nodup) :
    jsKeys (s.applyOp op).map = (specStepSet acc op).map bufToString ∧
      (specStepSet acc op).Nodup := by
  cases op with
  | addOp k =>
      cases hk : k.contents with
      | none =>
          have ht := toBinary_of_contents_none k hk
          simpa [BufferSet.applyOp, BufferSet.add, ht, specStepSet, hk]
            using ⟨hrel, hnd⟩
      | some bs =>
          have ht := toBinary_of_contents k bs hk
          have h2 := jsSet_spec s.map acc bs k hrel hnd
          simpa [BufferSet.applyOp, BufferSet.add, ht, specStepSet, hk]
            using h2
  | delOp k =>
      cases hk : k.contents with
      | none =>
          have ht := toBinary_of_contents_none k hk
          simpa [BufferSet.applyOp, BufferSet.delete, ht, specStepSet, hk]
            using ⟨hrel, hnd⟩
      | some bs =>
          have ht := toBinary_of_contents k bs hk
          have h2 := jsDel_spec s.map acc bs hrel hnd
          simpa [BufferSet.applyOp, BufferSet.delete, ht, specStepSet, hk]
            using h2
  | clearOp =>
      simp [BufferSet.applyOp, BufferSet.clear, specStepSet, jsKeys]

theorem applySetOps_spec (ops : List SetOp) (s : BufferSet)
    (acc : List (List Byte))
    (hrel : jsKeys s.map = acc.map bufToString) (hnd : acc.Nodup) :
    jsKeys (s.applyOps ops).map =
      (ops.foldl specStepSet acc).map bufToString ∧
      (ops.foldl specStepSet acc).Nodup := by
  induction ops generalizing s acc with
  | nil => exact ⟨hrel, hnd⟩
  | cons op tl ih =>
      have h := applySetOp_spec s acc op hrel hnd
      simpa [BufferSet.applyOps, List.foldl_cons] using
        ih (s.applyOp op) (specStepSet acc op) h.1 h.2

/-- C6: size invariant.  After any sequence of `set`/`add`, `delete` and
`clear` operations with byte-bearing keys starting from the empty
container, `size` equals the number of distinct byte contents inserted
and not yet deleted (the spec-side accounting list, shown duplicate-free);
and inserting a key whose content is already present never changes
`size`. -/
theorem claim_C6 {V : Type} (ops : List (MapOp V)) (sops : List SetOp)
    (_hops : ops.all MapOp.byteBearing = true)
    (_hsops : sops.all SetOp.byteBearing = true) :
    ((BufferMap.empty (V := V)).applyOps ops).size =
      (specContentsMap ops).length ∧
    (specContentsMap ops).Nodup ∧
    (BufferSet.empty.applyOps sops).size =
      (specContentsSet sops).length ∧
    (specContentsSet sops).Nodup ∧
    (∀ (m : BufferMap V) (k : JSKey) (v : Option V) (bs : List Byte),
      k.contents = some bs → m.has k = .ok true →
      (m.set k v).1.size = m.size) ∧
    (∀ (s : BufferSet) (k : JSKey) (bs : List Byte),
      k.contents = some bs → s.has k = .ok true →
      (s.add k).1.size = s.size) := by
  have hmap := applyOps_spec ops (BufferMap.empty (V := V)) [] rfl
    List.nodup_nil
  have hset := applySetOps_spec sops BufferSet.empty [] rfl
    List.nodup_nil
  refine ⟨?_, hmap.2, ?_, hset.2, ?_, ?_⟩
  · have := congrArg List.length hmap.1
    simpa [BufferMap.size, jsKeys, specContentsMap] using this
  · have := congrArg List.length hset.1
    simpa [BufferSet.size, jsKeys, specContentsSet] using this
  · intro m k v bs hk hpres
    have ht := toBinary_of_contents k bs hk
    simp only [BufferMap.has, ht, Except.map, Except.ok.injEq] at hpres
    have : (m.set k v).1.map = jsReplace m.map (bufToString bs) ⟨k, v⟩ := by
      simp only [BufferMap.set, ht]
      unfold jsSet
      rw [if_pos hpres]
    simp [BufferMap.size, this, length_jsReplace]
  · intro s k bs hk hpres
    have ht := toBinary_of_contents k bs hk
    simp only [BufferSet.has, ht, Except.map, Except.ok.injEq] at hpres
    have : (s.add k).1.map = jsReplace s.map (bufToString bs) k := by
      simp only [BufferSet.add, ht]
      unfold jsSet
      rw [if_pos hpres]
    simp [BufferSet.size, this, length_jsReplace]

/-- Witness for C6: inserting content `[1]` twice (through a Buffer and a
content-equal view), deleting an absent content `[9]`, against both
containers. -/
theorem claim_C6_witness :
    ([MapOp.setOp (V := Nat) (JSKey.buffer [1]) (some 0),
        MapOp.setOp (JSKey.view [1] 0 1) (some 2),
        MapOp.delOp (JSKey.buffer [9])].all MapOp.byteBearing = true) ∧
    ([SetOp.addOp (JSKey.buffer [1]), SetOp.addOp (JSKey.view [1] 0 1),
        SetOp.delOp (JSKey.buffer [9])].all SetOp.byteBearing = true) ∧
    ((BufferMap.empty (V := Nat)).applyOps
        [MapOp.setOp (JSKey.buffer [1]) (some 0),
          MapOp.setOp (JSKey.view [1] 0 1) (some 2),
          MapOp.delOp (JSKey.buffer [9])]).size =
      (specContentsMap
        [MapOp.setOp (V := Nat) (JSKey.buffer [1]) (some 0),
          MapOp.setOp (JSKey.view [1] 0 1) (some 2),
          MapOp.delOp (JSKey.buffer [9])]).length ∧
    (BufferSet.empty.applyOps
        [SetOp.addOp (JSKey.buffer [1]), SetOp.addOp (JSKey.view [1] 0 1),
          SetOp.delOp (JSKey.buffer [9])]).size =
      (specContentsSet
        [SetOp.addOp (JSKey.buffer [1]), SetOp.addOp (JSKey.view [1] 0 1),
          SetOp.delOp (JSKey.buffer [9])]).length := by
  have h := claim_C6 (V := Nat)
    [MapOp.setOp (JSKey.buffer [1]) (some 0),
      MapOp.setOp (JSKey.view [1] 0 1) (some 2),
      MapOp.delOp (JSKey.buffer [9])]
    [SetOp.addOp (JSKey.buffer [1]), SetOp.addOp (JSKey.view [1] 0 1),
      SetOp.delOp (JSKey.buffer [9])] rfl rfl
  exact ⟨rfl, rfl, h.1, h.2.2.1⟩

end BufferMapJS
